import Mathlib

/-!
Shallow embedding of the Trade Logger / Risk Calculator core
(`tradelogger.py`): the execution/commission reconciliation engine,
the sorted view projection, the balance change-log, and the position
sizing calculator.  Python floats are modelled by `ℚ`; a numeric cell
that Python's `float(...)` would fail to parse is modelled as `none`.
-/

namespace TradeLogger

/-! ### Data model -/

/-- Columns of the trades table (`self.columns`, line 241 of the source). -/
inductive Column
  | time | instrument | action | quantity | price | account | commission | realizedPnL
deriving DecidableEq

/-- One trade record (the dict built in `execDetails`, line 161).
`execId` is `none` when the `"ExecId"` key is absent from the dict;
numeric cells are `none` when `float(value)` would raise. -/
structure Trade where
  execId : Option String
  time : String
  instrument : String
  action : String
  quantity : Option ℚ
  price : Option ℚ
  account : String
  commission : Option ℚ
  pnl : Option ℚ
deriving DecidableEq

/-- In-memory application state relevant to the reconciliation engine:
`trades` is `self.trades`, `tradeExecIds` the known-id set
`self.trade_exec_ids`, `execIdToTreeId` the keys of the tree-row map
`self.exec_id_to_tree_id`, and `savedTrades` the content of the
persisted `trades.json` file. -/
structure AppState where
  trades : List Trade
  tradeExecIds : List String
  execIdToTreeId : List String
  sortColumn : Column
  sortReverse : Bool
  savedTrades : List Trade
deriving DecidableEq

/-- Initial state of `TradeLoggerApp.__init__` when no trades file exists:
empty store, empty known-id set, sort column `Time`, descending. -/
def initialState : AppState :=
  { trades := [], tradeExecIds := [], execIdToTreeId := [],
    sortColumn := .time, sortReverse := true, savedTrades := [] }

/-! ### Sorted view projection (`sort_by_column`, lines 462-472) -/

/-- A Python sort key: either a float (with `none` standing for the
`-float('inf')` fallback on parse failure) or a string. -/
inductive SKey
  | num : Option ℚ → SKey
  | str : String → SKey
deriving DecidableEq

/-- Comparison of float keys; `none` is `-inf` and sorts below everything. -/
def numLe : Option ℚ → Option ℚ → Bool
  | none, _ => true
  | some _, none => false
  | some a, some b => decide (a ≤ b)

/-- Comparison of sort keys.  Within one sort call all keys have the same
shape, so the mixed cases are never exercised. -/
def keyLe : SKey → SKey → Bool
  | .num a, .num b => numLe a b
  | .str a, .str b => decide (a ≤ b)
  | .num _, .str _ => true
  | .str _, .num _ => false

/-- The fixed set of float-compared columns
(`col in ("Quantity", "Price", "Commission", "Realized P&L")`, line 467). -/
def numericColumns : List Column := [.quantity, .price, .commission, .realizedPnL]

/-- The numeric cell of a trade at a numeric column. -/
def numCell (col : Column) (t : Trade) : Option ℚ :=
  match col with
  | .quantity => t.quantity
  | .price => t.price
  | .commission => t.commission
  | .realizedPnL => t.pnl
  | _ => none

/-- The string representation of a trade's cell at a string column. -/
def strCell (col : Column) (t : Trade) : String :=
  match col with
  | .time => t.time
  | .instrument => t.instrument
  | .action => t.action
  | .account => t.account
  | _ => ""

/-- `sort_key` (lines 465-470): numeric columns parse as float with
`-inf` fallback, all other columns compare as strings. -/
def sortKey (col : Column) (t : Trade) : SKey :=
  if col ∈ numericColumns then .num (numCell col t) else .str (strCell col t)

/-- Trade comparison induced by the sort key of a column. -/
def tradeLe (col : Column) (a b : Trade) : Bool :=
  keyLe (sortKey col a) (sortKey col b)

/-- CPython `list.sort(key=…, reverse=r)`: a stable mergesort; with
`reverse=True` the list is reversed, sorted ascending, and reversed
again, so equal keys keep their original relative order. -/
def pySorted (le : α → α → Bool) (reverse : Bool) (l : List α) : List α :=
  if reverse then (l.reverse.mergeSort le).reverse else l.mergeSort le

/-- Rebuild of `exec_id_to_tree_id` in `_repopulate_tree` (lines 474-480):
one tree row id per trade that has an `ExecId` key. -/
def repopulateTreeIds (trades : List Trade) : List String :=
  trades.filterMap (·.execId)

/-- `sort_by_column` (lines 462-472): re-sorting the current column toggles
the direction, a new column sorts ascending; `self.trades` is sorted in
place and the tree is repopulated.  The persisted file is not touched. -/
def sortByColumn (col : Column) (st : AppState) : AppState :=
  let reverse := if col = st.sortColumn then !st.sortReverse else false
  let trades' := pySorted (tradeLe col) reverse st.trades
  { st with
    sortColumn := col,
    sortReverse := reverse,
    trades := trades',
    execIdToTreeId := repopulateTreeIds trades' }

/-! ### Reconciliation engine -/

/-- An execution event as delivered to `execDetails` (lines 157-162). -/
structure ExecEvent where
  execId : String
  time : String
  symbol : String
  secType : String
  currency : String
  side : String
  shares : ℚ
  price : ℚ
  acctNumber : String
deriving DecidableEq

/-- The trade dict built by `execDetails` (line 161): commission and
realized P&L start at `0.0`. -/
def mkTradeData (e : ExecEvent) : Trade :=
  { execId := some e.execId, time := e.time,
    instrument := e.symbol ++ " " ++ e.secType ++ " (" ++ e.currency ++ ")",
    action := e.side, quantity := some e.shares, price := some e.price,
    account := e.acctNumber, commission := some 0, pnl := some 0 }

/-- `add_trade_to_table` (lines 510-518): a falsy (`None` or empty) or
already-known `ExecId` is discarded; otherwise the id is marked known,
the record is inserted at the front, the store is persisted, and the
current sort column is re-applied. -/
def addTradeToTable (td : Trade) (st : AppState) : AppState :=
  match td.execId with
  | none => st
  | some execId =>
    if execId = "" ∨ execId ∈ st.tradeExecIds then st
    else
      let trades := td :: st.trades
      sortByColumn st.sortColumn
        { st with
          tradeExecIds := execId :: st.tradeExecIds,
          trades := trades,
          savedTrades := trades }

/-- Feeding one execution event through `execDetails` into the table. -/
def applyExec (st : AppState) (ev : ExecEvent) : AppState :=
  addTradeToTable (mkTradeData ev) st

/-- Feeding a whole sequence of execution events, in order. -/
def applyExecs (evs : List ExecEvent) (st : AppState) : AppState :=
  evs.foldl applyExec st

/-- The first event of a sequence carrying a given execution id. -/
def firstWith (evs : List ExecEvent) (e : String) : Option ExecEvent :=
  evs.find? (fun ev => ev.execId == e)

/-- First-match predicate used by `update_trade_financials`'s generator
expression `t.get("ExecId") == exec_id` (line 522). -/
def matchesId (execId : String) (t : Trade) : Bool :=
  t.execId == some execId

/-- The store/known-id coupling maintained by the reconciliation engine:
each known id owns exactly one record, unknown ids own none. -/
def storeInv (st : AppState) : Prop :=
  ∀ e : String,
    st.trades.countP (matchesId e) = if e ∈ st.tradeExecIds then 1 else 0

/-- `sys.float_info.max`, the sentinel "unset" P&L value (largest double). -/
def floatInfoMax : ℚ := (2 ^ 53 - 1) * 2 ^ 971

/-- In-place mutation of the first list element satisfying `p`, as done to
the dict found by `next(...)`. -/
def updateFirst (p : α → Bool) (f : α → α) : List α → List α
  | [] => []
  | x :: xs => if p x then f x :: xs else x :: updateFirst p f xs

/-- The field overwrite of line 526:
`trade_to_update["Commission"], trade_to_update["Realized P&L"] = commission, pnl_to_store`. -/
def setFinancials (commission pnlToStore : ℚ) (t : Trade) : Trade :=
  { t with commission := some commission, pnl := some pnlToStore }

/-- `update_trade_financials` (lines 520-530): if a trade with the given
`ExecId` exists and has a tree row, overwrite commission and realized
P&L (clamping a sentinel-max P&L to `0.0`) and persist; otherwise drop
the event with no state change. -/
def updateTradeFinancials (execId : String) (commission pnl : ℚ)
    (st : AppState) : AppState :=
  if (st.trades.find? (matchesId execId)).isSome ∧ execId ∈ st.execIdToTreeId then
    let pnlToStore := if floatInfoMax ≤ pnl then 0 else pnl
    let trades' := updateFirst (matchesId execId)
      (setFinancials commission pnlToStore) st.trades
    { st with trades := trades', savedTrades := trades' }
  else st

/-! ### Balance change-log (`log_account_balance`, lines 405-420) -/

/-- One record of `accountBalances.json` as written at line 415. -/
structure BalanceRecord where
  account : String
  dateTime : String
  balance : ℚ
deriving DecidableEq

/-- The backward scan of lines 410-413: the most recent record of the
given account. -/
def findLatest (account : String) (history : List BalanceRecord) :
    Option BalanceRecord :=
  history.reverse.find? (fun r => r.account == account)

/-- `log_account_balance` (lines 405-420) on an already-parsed balance:
append a timestamped record only when the most recent record of the
account is absent or differs in value. -/
def logAccountBalance (account : String) (newBalance : ℚ) (now : String)
    (history : List BalanceRecord) : List BalanceRecord :=
  match findLatest account history with
  | none => history ++ [⟨account, now, newBalance⟩]
  | some latest =>
    if latest.balance ≠ newBalance then history ++ [⟨account, now, newBalance⟩]
    else history

/-- One `accountSummary` NetLiquidation callback feeding the log. -/
structure BalanceEvent where
  account : String
  value : ℚ
  now : String
deriving DecidableEq

/-- Folding a sequence of balance events into the log, starting empty. -/
def applyBalances (evs : List BalanceEvent) : List BalanceRecord :=
  evs.foldl (fun h e => logAccountBalance e.account e.value e.now h) []

/-! ### Balance history view sort (`BalanceHistoryWindow.sort_by_column`,
lines 668-680) -/

/-- Columns of the balance history view (line 656). -/
inductive BColumn
  | account | dateTime | balance
deriving DecidableEq

/-- A row of the balance view as read back from the file; the balance
cell is `none` when `float(value)` would raise. -/
structure BalanceRow where
  account : String
  dateTime : String
  balance : Option ℚ
deriving DecidableEq

/-- `sort_key` of the balance view (lines 672-677): only the `Balance`
column parses as float (with `-inf` fallback); the rest compare as
strings. -/
def balanceSortKey (col : BColumn) (r : BalanceRow) : SKey :=
  match col with
  | .balance => .num r.balance
  | .account => .str r.account
  | .dateTime => .str r.dateTime

/-! ### Position sizing calculator (`update_calculations`, lines 329-351) -/

/-- The derived outputs of one run of `update_calculations`; the two
`Rounded` fields carry the floor-to-2-decimals display rounding of
line 342. -/
structure CalcResults where
  acc1R : ℚ
  riskPerShare : ℚ
  shareSize : ℤ
  positionSize : ℤ
  potentialPerShare : ℚ
  rewardRisk : ℚ
  potentialProfit : ℚ
  accountAtRiskPrct : ℚ
  rewardRiskRounded : ℚ
  accountAtRiskPrctRounded : ℚ
deriving DecidableEq

/-- `update_calculations` (lines 329-351) on parsed numeric inputs;
`riskPrctRaw` is the raw percent-units entry. -/
def updateCalculations (balance riskPrctRaw entry stop target : ℚ) :
    CalcResults :=
  let riskPrct0 := riskPrctRaw / 100
  let riskPrct := if 1/10000 ≤ riskPrct0 ∧ riskPrct0 ≤ 1 then riskPrct0 else 1/100
  let acc1R := balance * riskPrct
  let riskPerShare := if 0 < entry ∧ 0 < stop then |entry - stop| else 0
  let shareSize : ℤ := if 0 < riskPerShare then ⌊acc1R / riskPerShare⌋ else 0
  let positionSize : ℤ := ⌈entry * (shareSize : ℚ)⌉
  let potentialPerShare := if 0 < target then |target - entry| else 0
  let rewardRisk := if 0 < riskPerShare then potentialPerShare / riskPerShare else 0
  let potentialProfit := potentialPerShare * (shareSize : ℚ)
  let accountAtRiskPrct := if 0 < balance then (positionSize : ℚ) / balance * 100 else 0
  { acc1R := acc1R,
    riskPerShare := riskPerShare,
    shareSize := shareSize,
    positionSize := positionSize,
    potentialPerShare := potentialPerShare,
    rewardRisk := rewardRisk,
    potentialProfit := potentialProfit,
    accountAtRiskPrct := accountAtRiskPrct,
    rewardRiskRounded := (⌊rewardRisk * 100⌋ : ℚ) / 100,
    accountAtRiskPrctRounded := (⌊accountAtRiskPrct * 100⌋ : ℚ) / 100 }

/-! ### Concrete sample data used by witnesses and counterexamples -/

/-- A fully reconciled sample trade with execution id `"A"`. -/
def tGood : Trade :=
  { execId := some "A", time := "t1", instrument := "MSFT STK (USD)",
    action := "BOT", quantity := some 10, price := some 5, account := "U1",
    commission := some 0, pnl := some 0 }

/-- A sample trade whose price cell is unparseable (`float` would raise). -/
def tBad : Trade :=
  { execId := some "B", time := "t2", instrument := "AAPL STK (USD)",
    action := "SLD", quantity := some 3, price := none, account := "U1",
    commission := some 0, pnl := some 0 }

/-- A sample trade dict with no usable `ExecId`. -/
def tNoId : Trade :=
  { execId := none, time := "t3", instrument := "IBM STK (USD)",
    action := "BOT", quantity := some 1, price := some 2, account := "U1",
    commission := some 0, pnl := some 0 }

/-- A small concrete application state holding `tGood` and `tBad`. -/
def exSt : AppState :=
  { trades := [tGood, tBad], tradeExecIds := ["A", "B"],
    execIdToTreeId := ["A", "B"], sortColumn := .time, sortReverse := true,
    savedTrades := [tGood, tBad] }

/-- The sample state with the `Price` column already active and an
ascending direction, so that a `Price` click toggles to descending. -/
def exStDesc : AppState :=
  { exSt with sortColumn := .price, sortReverse := false }

/-- A sample execution event with execution id `"C"`. -/
def evC : ExecEvent :=
  { execId := "C", time := "t4", symbol := "TSLA", secType := "STK",
    currency := "USD", side := "BOT", shares := 2, price := 7,
    acctNumber := "U1" }

/-! ## Helper lemmas -/

lemma matchesId_setFinancials (e : String) (c p : ℚ) (t : Trade) :
    matchesId e (setFinancials c p t) = matchesId e t := rfl

lemma updateFirst_updateFirst (p : α → Bool) (f : α → α)
    (hpf : ∀ x, p (f x) = p x) (hff : ∀ x, f (f x) = f x) :
    ∀ l : List α, updateFirst p f (updateFirst p f l) = updateFirst p f l
  | [] => rfl
  | x :: xs => by
    by_cases h : p x
    · simp [updateFirst, h, hpf, hff]
    · simp [updateFirst, h, updateFirst_updateFirst p f hpf hff xs]

lemma find?_updateFirst (p : α → Bool) (f : α → α)
    (hpf : ∀ x, p (f x) = p x) :
    ∀ l : List α, ∀ t0, l.find? p = some t0 →
      (updateFirst p f l).find? p = some (f t0)
  | [], t0, h => by simp at h
  | x :: xs, t0, h => by
    by_cases hx : p x
    · rw [List.find?_cons_of_pos _ hx] at h
      obtain rfl : x = t0 := by simpa using h
      have : p (f x) = true := by rw [hpf]; exact hx
      simp [updateFirst, hx, List.find?_cons_of_pos _ this]
    · rw [List.find?_cons_of_neg _ hx] at h
      have hrec := find?_updateFirst p f hpf xs t0 h
      simp [updateFirst, hx, List.find?_cons_of_neg _ hx, hrec]

lemma find?_eq_head?_filter (p : α → Bool) :
    ∀ l : List α, l.find? p = (l.filter p).head?
  | [] => rfl
  | x :: xs => by
    by_cases h : p x
    · rw [List.find?_cons_of_pos _ h, List.filter_cons_of_pos h]
      rfl
    · rw [List.find?_cons_of_neg _ h, List.filter_cons_of_neg h]
      exact find?_eq_head?_filter p xs

lemma findLatest_eq_getLast? (account : String) (h : List BalanceRecord) :
    findLatest account h
      = (h.filter (fun r => r.account == account)).getLast? := by
  unfold findLatest
  rw [find?_eq_head?_filter, List.filter_reverse, List.head?_reverse]

lemma logAccountBalance_none (account : String) (v : ℚ) (now : String)
    (h : List BalanceRecord) (hfl : findLatest account h = none) :
    logAccountBalance account v now h = h ++ [⟨account, now, v⟩] := by
  unfold logAccountBalance
  simp only [hfl]

lemma logAccountBalance_diff (account : String) (v : ℚ) (now : String)
    (h : List BalanceRecord) (latest : BalanceRecord)
    (hfl : findLatest account h = some latest) (hne : latest.balance ≠ v) :
    logAccountBalance account v now h = h ++ [⟨account, now, v⟩] := by
  unfold logAccountBalance
  simp only [hfl]
  rw [if_pos hne]

lemma logAccountBalance_same (account : String) (v : ℚ) (now : String)
    (h : List BalanceRecord) (latest : BalanceRecord)
    (hfl : findLatest account h = some latest) (heq : latest.balance = v) :
    logAccountBalance account v now h = h := by
  unfold logAccountBalance
  simp only [hfl]
  rw [if_neg (by simp [heq])]

lemma logAccountBalance_chain (account : String) (v : ℚ) (now : String)
    (h : List BalanceRecord) (a : String)
    (ih : (h.filter (fun r => r.account == a)).Chain'
      (fun r s => r.balance ≠ s.balance)) :
    ((logAccountBalance account v now h).filter (fun r => r.account == a)).Chain'
      (fun r s => r.balance ≠ s.balance) := by
  rcases hfl : findLatest account h with - | latest
  · rw [logAccountBalance_none account v now h hfl]
    by_cases ha : account = a
    · subst ha
      have hemp : h.filter (fun r => r.account == account) = [] := by
        have hgl := findLatest_eq_getLast? account h
        rw [hfl] at hgl
        simpa using hgl.symm
      simp [List.filter_append, hemp, List.filter_cons]
    · simp only [List.filter_append, List.filter_cons]
      simp [show (account == a) = false from by simpa using ha, ih]
  · by_cases hne : latest.balance ≠ v
    · rw [logAccountBalance_diff account v now h latest hfl hne]
      by_cases ha : account = a
      · subst ha
        rw [List.filter_append, List.chain'_append]
        refine ⟨ih, by simp [List.filter_cons], ?_⟩
        intro x hx y hy
        have hgl := findLatest_eq_getLast? account h
        rw [hfl] at hgl
        rw [← hgl] at hx
        have hx' : latest = x := by simpa using hx
        have hy' : y = (⟨account, now, v⟩ : BalanceRecord) := by
          simp [List.filter_cons] at hy
          exact hy.symm
        rw [← hx', hy']
        exact hne
      · rw [List.filter_append]
        simp only [List.filter_cons]
        simp [show (account == a) = false from by simpa using ha, ih]
    · rw [logAccountBalance_same account v now h latest hfl (not_not.mp hne)]
      exact ih

lemma numLe_trans : ∀ a b c : Option ℚ, numLe a b → numLe b c → numLe a c
  | none, _, _, _, _ => rfl
  | some _, none, _, h1, _ => by simp [numLe] at h1
  | some _, some _, none, _, h2 => by simp [numLe] at h2
  | some a, some b, some c, h1, h2 => by
    simp only [numLe, decide_eq_true_eq] at h1 h2 ⊢
    exact le_trans h1 h2

lemma numLe_total : ∀ a b : Option ℚ, numLe a b || numLe b a
  | none, _ => by simp [numLe]
  | some _, none => by simp [numLe]
  | some a, some b => by
    simp only [numLe, Bool.or_eq_true, decide_eq_true_eq]
    exact le_total a b

lemma keyLe_trans : ∀ a b c : SKey, keyLe a b → keyLe b c → keyLe a c
  | .num _, .num _, .num _, h1, h2 => numLe_trans _ _ _ h1 h2
  | .num _, .num _, .str _, _, _ => rfl
  | .num _, .str _, .num _, _, h2 => by simp [keyLe] at h2
  | .num _, .str _, .str _, _, _ => rfl
  | .str _, .num _, _, h1, _ => by simp [keyLe] at h1
  | .str _, .str _, .num _, _, h2 => by simp [keyLe] at h2
  | .str a, .str b, .str c, h1, h2 => by
    simp only [keyLe, decide_eq_true_eq] at h1 h2 ⊢
    exact le_trans h1 h2

lemma keyLe_total : ∀ a b : SKey, keyLe a b || keyLe b a
  | .num a, .num b => numLe_total a b
  | .num _, .str _ => by simp [keyLe]
  | .str _, .num _ => by simp [keyLe]
  | .str a, .str b => by
    simp only [keyLe, Bool.or_eq_true, decide_eq_true_eq]
    exact le_total a b

lemma tradeLe_trans (col : Column) : ∀ a b c : Trade,
    tradeLe col a b → tradeLe col b c → tradeLe col a c :=
  fun a b c h1 h2 => keyLe_trans (sortKey col a) (sortKey col b) (sortKey col c) h1 h2

lemma tradeLe_total (col : Column) : ∀ a b : Trade,
    tradeLe col a b || tradeLe col b a :=
  fun a b => keyLe_total (sortKey col a) (sortKey col b)

lemma pySorted_perm (le : α → α → Bool) (rev : Bool) (l : List α) :
    (pySorted le rev l).Perm l := by
  unfold pySorted
  split_ifs
  · exact (List.reverse_perm _).trans
      ((List.mergeSort_perm _ le).trans (List.reverse_perm l))
  · exact List.mergeSort_perm l le

lemma head_mergeSort_none (col : Column) (hcol : col ∈ numericColumns)
    (l : List Trade) (hbad : ∃ t ∈ l, numCell col t = none) :
    ∃ t0, (l.mergeSort (tradeLe col)).head? = some t0 ∧ numCell col t0 = none := by
  obtain ⟨tb, htb, hcell⟩ := hbad
  have hmem : tb ∈ l.mergeSort (tradeLe col) := List.mem_mergeSort.mpr htb
  obtain ⟨t0, rest, heq⟩ : ∃ t0 rest, l.mergeSort (tradeLe col) = t0 :: rest := by
    cases hcase : l.mergeSort (tradeLe col) with
    | nil =>
      rw [hcase] at hmem
      simp at hmem
    | cons t0 rest => exact ⟨t0, rest, rfl⟩
  refine ⟨t0, by rw [heq]; rfl, ?_⟩
  by_cases ht0 : numCell col t0 = none
  · exact ht0
  · exfalso
    obtain ⟨q, hq⟩ := Option.ne_none_iff_exists'.mp ht0
    have htb_rest : tb ∈ rest := by
      rcases List.mem_cons.mp (heq ▸ hmem) with h | h
      · exact absurd (h ▸ hcell) ht0
      · exact h
    have hsorted := List.sorted_mergeSort (tradeLe_trans col) (tradeLe_total col) l
    rw [heq] at hsorted
    have hle : tradeLe col t0 tb = true :=
      (List.pairwise_cons.mp hsorted).1 tb htb_rest
    have hk0 : sortKey col t0 = .num (some q) := by simp [sortKey, hcol, hq]
    have hkb : sortKey col tb = .num none := by simp [sortKey, hcol, hcell]
    rw [show tradeLe col t0 tb = keyLe (sortKey col t0) (sortKey col tb) from rfl,
      hk0, hkb] at hle
    simp [keyLe, numLe] at hle

lemma applyBalances_chain (evs : List BalanceEvent) :
    ∀ h : List BalanceRecord,
      (∀ a, (h.filter (fun r => r.account == a)).Chain'
        (fun r s => r.balance ≠ s.balance)) →
      ∀ a, ((evs.foldl (fun acc e => logAccountBalance e.account e.value e.now acc)
          h).filter (fun r => r.account == a)).Chain'
        (fun r s => r.balance ≠ s.balance) := by
  induction evs with
  | nil => exact fun h ih a => ih a
  | cons e rest ihr =>
    intro h ih a
    exact ihr _ (fun a' => logAccountBalance_chain e.account e.value e.now h a' (ih a')) a

lemma mem_sortByColumn (col : Column) (st : AppState) (t : Trade) :
    t ∈ (sortByColumn col st).trades ↔ t ∈ st.trades :=
  (pySorted_perm (tradeLe col)
    (if col = st.sortColumn then !st.sortReverse else false) st.trades).mem_iff

lemma countP_sortByColumn (col : Column) (st : AppState) (pq : Trade → Bool) :
    ((sortByColumn col st).trades).countP pq = st.trades.countP pq :=
  (pySorted_perm (tradeLe col)
    (if col = st.sortColumn then !st.sortReverse else false) st.trades).countP_eq pq

lemma applyExec_drop (st : AppState) (ev : ExecEvent)
    (h : ev.execId = "" ∨ ev.execId ∈ st.tradeExecIds) :
    applyExec st ev = st := by
  show (if ev.execId = "" ∨ ev.execId ∈ st.tradeExecIds then st
    else
      sortByColumn st.sortColumn
        { st with
          tradeExecIds := ev.execId :: st.tradeExecIds,
          trades := mkTradeData ev :: st.trades,
          savedTrades := mkTradeData ev :: st.trades }) = st
  exact if_pos h

lemma applyExec_new (st : AppState) (ev : ExecEvent)
    (h1 : ev.execId ≠ "") (h2 : ev.execId ∉ st.tradeExecIds) :
    applyExec st ev = sortByColumn st.sortColumn
      { st with
        tradeExecIds := ev.execId :: st.tradeExecIds,
        trades := mkTradeData ev :: st.trades,
        savedTrades := mkTradeData ev :: st.trades } := by
  show (if ev.execId = "" ∨ ev.execId ∈ st.tradeExecIds then st
    else
      sortByColumn st.sortColumn
        { st with
          tradeExecIds := ev.execId :: st.tradeExecIds,
          trades := mkTradeData ev :: st.trades,
          savedTrades := mkTradeData ev :: st.trades }) = _
  exact if_neg (not_or.mpr ⟨h1, h2⟩)

lemma matchesId_mkTradeData (e : String) (ev : ExecEvent) :
    matchesId e (mkTradeData ev) = (ev.execId == e) := by
  simp [matchesId, mkTradeData]

lemma storeInv_applyExec_new (st : AppState) (ev : ExecEvent)
    (h2 : ev.execId ∉ st.tradeExecIds) (hInv : storeInv st) :
    storeInv (sortByColumn st.sortColumn
      { st with
        tradeExecIds := ev.execId :: st.tradeExecIds,
        trades := mkTradeData ev :: st.trades,
        savedTrades := mkTradeData ev :: st.trades }) := by
  intro e
  rw [countP_sortByColumn]
  show (mkTradeData ev :: st.trades).countP (matchesId e)
    = if e ∈ ev.execId :: st.tradeExecIds then 1 else 0
  rw [List.countP_cons, matchesId_mkTradeData]
  by_cases he : e = ev.execId
  · subst he
    rw [hInv ev.execId, if_neg h2, if_pos (List.mem_cons_self _ _)]
    simp
  · have hne : (ev.execId == e) = false := by
      simp
      exact fun hcontra => he hcontra.symm
    rw [hne, hInv e]
    have hmem : (e ∈ ev.execId :: st.tradeExecIds) ↔ e ∈ st.tradeExecIds := by
      rw [List.mem_cons]
      constructor
      · rintro (h | h)
        · exact absurd h he
        · exact h
      · exact Or.inr
    rw [if_congr hmem rfl rfl]
    simp

lemma firstWith_cons_of_ne (ev : ExecEvent) (rest : List ExecEvent) (e : String)
    (h : ev.execId ≠ e) : firstWith (ev :: rest) e = firstWith rest e := by
  unfold firstWith
  rw [List.find?_cons_of_neg]
  simpa using h

lemma firstWith_cons_self (ev : ExecEvent) (rest : List ExecEvent) :
    firstWith (ev :: rest) ev.execId = some ev := by
  unfold firstWith
  rw [List.find?_cons_of_pos]
  simp

lemma applyExecs_spec : ∀ (evs : List ExecEvent) (st : AppState), storeInv st →
    storeInv (applyExecs evs st)
    ∧ (∀ e : String, e ∈ (applyExecs evs st).tradeExecIds ↔
        (e ∈ st.tradeExecIds ∨ (e ≠ "" ∧ ∃ ev ∈ evs, ev.execId = e)))
    ∧ (∀ t ∈ (applyExecs evs st).trades,
        t ∈ st.trades ∨ ∃ ev, ev.execId ≠ "" ∧ ev.execId ∉ st.tradeExecIds
          ∧ firstWith evs ev.execId = some ev ∧ t = mkTradeData ev)
  | [], st, hInv => by
    refine ⟨hInv, fun e => ?_, fun t ht => Or.inl ht⟩
    constructor
    · exact Or.inl
    · rintro (h | ⟨-, ev, hev, -⟩)
      · exact h
      · exact absurd hev (List.not_mem_nil ev)
  | ev :: rest, st, hInv => by
    have hfold : applyExecs (ev :: rest) st = applyExecs rest (applyExec st ev) := by
      unfold applyExecs
      rw [List.foldl_cons]
    by_cases hknown : ev.execId = "" ∨ ev.execId ∈ st.tradeExecIds
    · have hst : applyExec st ev = st := applyExec_drop st ev hknown
      obtain ⟨ih1, ih2, ih3⟩ := applyExecs_spec rest st hInv
      rw [hfold, hst]
      refine ⟨ih1, ?_, ?_⟩
      · intro e
        rw [ih2 e]
        constructor
        · rintro (h | ⟨hne, ev', hmem, hid⟩)
          · exact Or.inl h
          · exact Or.inr ⟨hne, ev', List.mem_cons_of_mem ev hmem, hid⟩
        · rintro (h | ⟨hne, ev', hmem, hid⟩)
          · exact Or.inl h
          · rcases List.mem_cons.mp hmem with heq | hmem'
            · subst heq
              rcases hknown with hk | hk
              · exact absurd (hid ▸ hk) hne
              · exact Or.inl (hid ▸ hk)
            · exact Or.inr ⟨hne, ev', hmem', hid⟩
      · intro t ht
        rcases ih3 t ht with h | ⟨ev', hne, hni, hfw, hteq⟩
        · exact Or.inl h
        · refine Or.inr ⟨ev', hne, hni, ?_, hteq⟩
          have hdiff : ev.execId ≠ ev'.execId := by
            intro hcontra
            rcases hknown with hk | hk
            · exact hne (hcontra ▸ hk)
            · exact hni (hcontra ▸ hk)
          rw [firstWith_cons_of_ne ev rest ev'.execId hdiff]
          exact hfw
    · push_neg at hknown
      obtain ⟨h1, h2⟩ := hknown
      have hst := applyExec_new st ev h1 h2
      have hInv1 := storeInv_applyExec_new st ev h2 hInv
      obtain ⟨ih1, ih2, ih3⟩ := applyExecs_spec rest _ hInv1
      rw [hfold, hst]
      refine ⟨ih1, ?_, ?_⟩
      · intro e
        rw [ih2 e]
        have hids : (sortByColumn st.sortColumn
            { st with
              tradeExecIds := ev.execId :: st.tradeExecIds,
              trades := mkTradeData ev :: st.trades,
              savedTrades := mkTradeData ev :: st.trades }).tradeExecIds
            = ev.execId :: st.tradeExecIds := rfl
        rw [hids]
        constructor
        · rintro (h | ⟨hne, ev', hmem, hid⟩)
          · rcases List.mem_cons.mp h with heq | hmem'
            · exact Or.inr ⟨heq ▸ h1, ev, List.mem_cons_self ev rest, heq.symm⟩
            · exact Or.inl hmem'
          · exact Or.inr ⟨hne, ev', List.mem_cons_of_mem ev hmem, hid⟩
        · rintro (h | ⟨hne, ev', hmem, hid⟩)
          · exact Or.inl (List.mem_cons_of_mem _ h)
          · rcases List.mem_cons.mp hmem with heq | hmem'
            · subst heq
              exact Or.inl (hid ▸ List.mem_cons_self ev'.execId st.tradeExecIds)
            · exact Or.inr ⟨hne, ev', hmem', hid⟩
      · intro t ht
        rcases ih3 t ht with h | ⟨ev', hne, hni, hfw, hteq⟩
        · rcases List.mem_cons.mp ((mem_sortByColumn _ _ t).mp h) with heq | hmem'
          · refine Or.inr ⟨ev, h1, h2, firstWith_cons_self ev rest, heq⟩
          · exact Or.inl hmem'
        · have hni' : ev'.execId ∉ ev.execId :: st.tradeExecIds := hni
          refine Or.inr ⟨ev', hne, fun hcontra =>
            hni' (List.mem_cons_of_mem _ hcontra), ?_, hteq⟩
          have hdiff : ev.execId ≠ ev'.execId := by
            intro hcontra
            exact hni' (hcontra ▸ List.mem_cons_self ev.execId st.tradeExecIds)
          rw [firstWith_cons_of_ne ev rest ev'.execId hdiff]
          exact hfw

/-! ## Claims -/

/-- C1: over any sequence of execution events the Trade Store holds
exactly one record per distinct (non-empty) `execId`, equal to the
record built from the first applied event for that id; an event whose
id is already known is discarded with no state change at all. -/
theorem dedupByExecId (evs : List ExecEvent) (e : String) (he : e ≠ "") :
    ((applyExecs evs initialState).trades.countP (matchesId e)
        = if ∃ ev ∈ evs, ev.execId = e then 1 else 0)
    ∧ (∀ t ∈ (applyExecs evs initialState).trades, t.execId = some e →
        ∃ ev, firstWith evs e = some ev ∧ t = mkTradeData ev)
    ∧ (∀ (st : AppState) (ev : ExecEvent), ev.execId ∈ st.tradeExecIds →
        applyExec st ev = st) := by
  have hInv0 : storeInv initialState := by
    intro e'
    simp [initialState]
  obtain ⟨h1, h2, h3⟩ := applyExecs_spec evs initialState hInv0
  refine ⟨?_, ?_, fun st ev h => applyExec_drop st ev (Or.inr h)⟩
  · rw [h1 e]
    have hiff : e ∈ (applyExecs evs initialState).tradeExecIds
        ↔ (∃ ev ∈ evs, ev.execId = e) := by
      rw [h2 e]
      constructor
      · rintro (h | ⟨-, ev, hm, hid⟩)
        · simp [initialState] at h
        · exact ⟨ev, hm, hid⟩
      · rintro ⟨ev, hm, hid⟩
        exact Or.inr ⟨he, ev, hm, hid⟩
    rw [if_congr hiff rfl rfl]
  · intro t ht hexec
    rcases h3 t ht with h | ⟨ev, hne, hni, hfw, hteq⟩
    · simp [initialState] at h
    · have hid : ev.execId = e := by
        rw [hteq] at hexec
        simpa [mkTradeData] using hexec
      exact ⟨ev, hid ▸ hfw, hteq⟩

/-- Witness for C1: delivering the same execution event twice from the
initial state yields exactly one record for its id. -/
theorem dedupByExecId_witness :
    ((applyExecs [evC, evC] initialState).trades.countP (matchesId "C")
        = if ∃ ev ∈ [evC, evC], ev.execId = "C" then 1 else 0)
    ∧ (∀ t ∈ (applyExecs [evC, evC] initialState).trades, t.execId = some "C" →
        ∃ ev, firstWith [evC, evC] "C" = some ev ∧ t = mkTradeData ev)
    ∧ (∀ (st : AppState) (ev : ExecEvent), ev.execId ∈ st.tradeExecIds →
        applyExec st ev = st) :=
  dedupByExecId [evC, evC] "C" (by decide)

/-- C3: a commission event whose `execId` matches no Trade Record is
dropped with no state change, and a later execution event for that id
creates a record with commission `0` and realized P&L `0`, never
inheriting the dropped event's values. -/
theorem unresolvedCommissionDropped (st : AppState) (ev : ExecEvent) (c p : ℚ)
    (h1 : ∀ t ∈ st.trades, t.execId ≠ some ev.execId)
    (h2 : ev.execId ∉ st.tradeExecIds) (h3 : ev.execId ≠ "") :
    updateTradeFinancials ev.execId c p st = st
    ∧ (∀ t ∈ (applyExec (updateTradeFinancials ev.execId c p st) ev).trades,
        t.execId = some ev.execId → t.commission = some 0 ∧ t.pnl = some 0) := by
  have hfind : st.trades.find? (matchesId ev.execId) = none := by
    rw [List.find?_eq_none]
    intro t ht
    simp [matchesId]
    exact h1 t ht
  have hdrop : updateTradeFinancials ev.execId c p st = st := by
    unfold updateTradeFinancials
    rw [if_neg]
    rintro ⟨hc, -⟩
    rw [hfind] at hc
    exact absurd hc (by simp)
  refine ⟨hdrop, ?_⟩
  rw [hdrop]
  intro t ht hexec
  rw [applyExec_new st ev h3 h2] at ht
  rcases List.mem_cons.mp ((mem_sortByColumn _ _ t).mp ht) with heq | hmem
  · rw [heq]
    exact ⟨rfl, rfl⟩
  · exact absurd hexec (h1 t hmem)

/-- Witness for C3: the commission event `("C", 5, 7)` against the empty
initial state is a no-op, and the later execution event for `"C"`
creates a zero-commission, zero-P&L record. -/
theorem unresolvedCommissionDropped_witness :
    updateTradeFinancials "C" 5 7 initialState = initialState
    ∧ (∀ t ∈ (applyExec (updateTradeFinancials "C" 5 7 initialState) evC).trades,
        t.execId = some "C" → t.commission = some 0 ∧ t.pnl = some 0) :=
  unresolvedCommissionDropped initialState evC 5 7
    (by simp [initialState]) (by simp [initialState]) (by decide)

/-- C2: applying the same commission event `(execId, commission, realizedPnL)`
twice to the Trade Store yields exactly the same Trade Record state as
applying it once. -/
theorem commissionEventIdempotent (execId : String) (c p : ℚ) (st : AppState) :
    updateTradeFinancials execId c p (updateTradeFinancials execId c p st)
      = updateTradeFinancials execId c p st := by
  by_cases h : (st.trades.find? (matchesId execId)).isSome ∧ execId ∈ st.execIdToTreeId
  · obtain ⟨h1, h2⟩ := h
    obtain ⟨t0, ht0⟩ := Option.isSome_iff_exists.mp h1
    set q : ℚ := if floatInfoMax ≤ p then 0 else p with hq
    set L : List Trade :=
      updateFirst (matchesId execId) (setFinancials c q) st.trades with hL
    have hfind : L.find? (matchesId execId) = some (setFinancials c q t0) := by
      rw [hL]
      exact find?_updateFirst (matchesId execId) (setFinancials c q)
        (fun t => rfl) st.trades t0 ht0
    have hLL : updateFirst (matchesId execId) (setFinancials c q) L = L := by
      rw [hL]
      exact updateFirst_updateFirst (matchesId execId) (setFinancials c q)
        (fun t => rfl) (fun t => rfl) st.trades
    have hstep : updateTradeFinancials execId c p st =
        { st with trades := L, savedTrades := L } := by
      simp only [updateTradeFinancials, if_pos (And.intro h1 h2)]
    have hS1 : (({ st with trades := L, savedTrades := L } : AppState).trades.find?
        (matchesId execId)).isSome = true := by
      show (L.find? (matchesId execId)).isSome = true
      rw [hfind]
      rfl
    have hstep2 : updateTradeFinancials execId c p
        { st with trades := L, savedTrades := L }
        = { st with trades := L, savedTrades := L } := by
      simp only [updateTradeFinancials, if_pos (And.intro hS1 h2)]
      show ({ st with
          trades := updateFirst (matchesId execId) (setFinancials c q) L,
          savedTrades := updateFirst (matchesId execId) (setFinancials c q) L }
        : AppState) = { st with trades := L, savedTrades := L }
      rw [hLL]
    rw [hstep, hstep2]
  · have hstep : updateTradeFinancials execId c p st = st := by
      simp only [updateTradeFinancials, if_neg h]
    rw [hstep, hstep]

/-- C7: a commission event matching an existing Trade Record overwrites
the record's commission and realized P&L, except that a realized P&L at
or above the sentinel maximum float is stored as `0.0`; the commission
itself is stored unmodified. -/
theorem commissionOverwrite (execId : String) (c p : ℚ) (st : AppState)
    (h1 : (st.trades.find? (matchesId execId)).isSome = true)
    (h2 : execId ∈ st.execIdToTreeId) :
    ∃ t, ((updateTradeFinancials execId c p st).trades.find? (matchesId execId))
        = some t
      ∧ t.commission = some c
      ∧ t.pnl = some (if floatInfoMax ≤ p then 0 else p) := by
  obtain ⟨t0, ht0⟩ := Option.isSome_iff_exists.mp h1
  refine ⟨setFinancials c (if floatInfoMax ≤ p then 0 else p) t0, ?_, rfl, rfl⟩
  have hstep : updateTradeFinancials execId c p st =
      { st with
        trades := updateFirst (matchesId execId)
          (setFinancials c (if floatInfoMax ≤ p then 0 else p)) st.trades,
        savedTrades := updateFirst (matchesId execId)
          (setFinancials c (if floatInfoMax ≤ p then 0 else p)) st.trades } := by
    simp only [updateTradeFinancials, if_pos (And.intro h1 h2)]
  rw [hstep]
  exact find?_updateFirst (matchesId execId)
    (setFinancials c (if floatInfoMax ≤ p then 0 else p))
    (fun t => rfl) st.trades t0 ht0

/-- Witness for C7 at a concrete state: the commission event `("A", 1, 2)`
against `exSt` lands on the record and stores commission `1` and P&L `2`. -/
theorem commissionOverwrite_witness :
    ∃ t, ((updateTradeFinancials "A" 1 2 exSt).trades.find? (matchesId "A"))
        = some t
      ∧ t.commission = some 1
      ∧ t.pnl = some (if floatInfoMax ≤ 2 then 0 else 2) :=
  commissionOverwrite "A" 1 2 exSt (by decide) (by decide)

/-- C10: an execution event whose record has no `ExecId` field or whose
`ExecId` is the empty string is discarded entirely: no record is
created, the known-id set is unchanged, and nothing is persisted. -/
theorem missingExecIdDiscarded (td : Trade) (st : AppState)
    (h : td.execId = none ∨ td.execId = some "") :
    addTradeToTable td st = st := by
  rcases h with h | h
  · simp [addTradeToTable, h]
  · simp [addTradeToTable, h]

/-- Witness for C10: the id-less sample trade leaves `exSt` untouched. -/
theorem missingExecIdDiscarded_witness : addTradeToTable tNoId exSt = exSt :=
  missingExecIdDiscarded tNoId exSt (Or.inl rfl)

/-- C4: for balance `10000`, risk percent `1`, entry `50`, stop `48`,
target `55`, the calculator yields risk-per-share `2`, account risk
`100`, share size `50`, position size `2500`, account-at-risk `25%`,
potential-per-share `5`, reward/risk `2.5`, and potential profit `250`. -/
theorem sizingDeterminism :
    updateCalculations 10000 1 50 48 55 =
      { acc1R := 100, riskPerShare := 2, shareSize := 50, positionSize := 2500,
        potentialPerShare := 5, rewardRisk := 5/2, potentialProfit := 250,
        accountAtRiskPrct := 25, rewardRiskRounded := 5/2,
        accountAtRiskPrctRounded := 25 } := by
  norm_num [updateCalculations, CalcResults.mk.injEq, abs]

/-- C5: with `entry = stop` the calculator computes risk-per-share `0`,
share size `0`, position size `0` and reward/risk `0` without dividing
by zero; and for any inputs with non-negative balance, share size and
position size are non-negative integers. -/
theorem sizingGuards :
    (∀ balance riskPrctRaw entry target : ℚ,
       (updateCalculations balance riskPrctRaw entry entry target).riskPerShare = 0
       ∧ (updateCalculations balance riskPrctRaw entry entry target).shareSize = 0
       ∧ (updateCalculations balance riskPrctRaw entry entry target).positionSize = 0
       ∧ (updateCalculations balance riskPrctRaw entry entry target).rewardRisk = 0)
    ∧ (∀ balance riskPrctRaw entry stop target : ℚ, 0 ≤ balance →
       0 ≤ (updateCalculations balance riskPrctRaw entry stop target).shareSize
       ∧ 0 ≤ (updateCalculations balance riskPrctRaw entry stop target).positionSize) := by
  constructor
  · intro balance riskPrctRaw entry target
    simp [updateCalculations, sub_self, abs_zero, ite_self, lt_irrefl]
  · intro balance riskPrctRaw entry stop target hb
    constructor
    · simp only [updateCalculations]
      set r : ℚ := if 1/10000 ≤ riskPrctRaw / 100 ∧ riskPrctRaw / 100 ≤ 1
          then riskPrctRaw / 100 else 1/100 with hrdef
      have hr : 0 ≤ r := by
        rw [hrdef]
        split_ifs with hc
        · linarith [hc.1]
        · norm_num
      set s : ℚ := if 0 < entry ∧ 0 < stop then |entry - stop| else 0 with hsdef
      split_ifs with h3
      · exact Int.floor_nonneg.mpr (div_nonneg (mul_nonneg hb hr) h3.le)
      · exact le_refl (0:ℤ)
    · simp only [updateCalculations]
      set r : ℚ := if 1/10000 ≤ riskPrctRaw / 100 ∧ riskPrctRaw / 100 ≤ 1
          then riskPrctRaw / 100 else 1/100 with hrdef
      have hr : 0 ≤ r := by
        rw [hrdef]
        split_ifs with hc
        · linarith [hc.1]
        · norm_num
      set s : ℚ := if 0 < entry ∧ 0 < stop then |entry - stop| else 0 with hsdef
      have hse : 0 < s → 0 < entry := by
        rw [hsdef]
        split_ifs with hc
        · exact fun _ => hc.1
        · exact fun hlt => absurd hlt (lt_irrefl 0)
      split_ifs with h3
      · refine Int.ceil_nonneg (mul_nonneg (hse h3).le ?_)
        have hfl := Int.floor_nonneg.mpr (div_nonneg (mul_nonneg hb hr) h3.le)
        exact_mod_cast hfl
      · simp

/-- Witness for C5 at concrete inputs: entry `7` equal to stop, and the
non-negativity facts at the C4 inputs. -/
theorem sizingGuards_witness :
    ((updateCalculations 10000 1 7 7 9).riskPerShare = 0
      ∧ (updateCalculations 10000 1 7 7 9).shareSize = 0
      ∧ (updateCalculations 10000 1 7 7 9).positionSize = 0
      ∧ (updateCalculations 10000 1 7 7 9).rewardRisk = 0)
    ∧ (0 ≤ (updateCalculations 10000 1 50 48 55).shareSize
      ∧ 0 ≤ (updateCalculations 10000 1 50 48 55).positionSize) :=
  ⟨sizingGuards.1 10000 1 7 9, sizingGuards.2 10000 1 50 48 55 (by norm_num)⟩

/-- C6: for every account, the Balance Log reached from the empty log
never holds two consecutive records of that account with equal balance;
a value equal to the account's most recent record is a no-op; and the
value sequence `[100, 100, 150, 150, 100]` for one account logs exactly
`[100, 150, 100]`. -/
theorem balanceDedup :
    (∀ (evs : List BalanceEvent) (a : String),
       ((applyBalances evs).filter (fun r => r.account == a)).Chain'
         (fun r s => r.balance ≠ s.balance))
    ∧ (∀ (h : List BalanceRecord) (acct : String) (v : ℚ) (now : String)
         (latest : BalanceRecord),
       findLatest acct h = some latest → latest.balance = v →
       logAccountBalance acct v now h = h)
    ∧ (applyBalances [⟨"A", 100, "t1"⟩, ⟨"A", 100, "t2"⟩, ⟨"A", 150, "t3"⟩,
         ⟨"A", 150, "t4"⟩, ⟨"A", 100, "t5"⟩]).map (fun r => r.balance)
       = [100, 150, 100] := by
  refine ⟨?_, ?_, by decide⟩
  · intro evs a
    exact applyBalances_chain evs [] (fun a' => by simp) a
  · intro h acct v now latest hfl hbal
    exact logAccountBalance_same acct v now h latest hfl hbal

/-- Witness for C6's no-op conjunct: re-logging the latest value `100`
for account `"A"` leaves the one-record log unchanged. -/
theorem balanceDedup_witness :
    logAccountBalance "A" 100 "t2" [⟨"A", "t1", 100⟩] = [⟨"A", "t1", 100⟩] :=
  balanceDedup.2.1 [⟨"A", "t1", 100⟩] "A" 100 "t2" ⟨"A", "t1", 100⟩ (by decide) rfl

/-- C8: sorting compares the quantity, price, commission and realized
P&L columns (and the balance column of the balance view) as floats
with unparseable values as negative infinity — such a row lands first
ascending and last descending — other columns compare as strings;
re-sorting the active column toggles the direction and a new column
sorts ascending. -/
theorem sortViewTypeAware (st : AppState) (col : Column) :
    (sortByColumn col st).sortColumn = col
    ∧ (sortByColumn col st).sortReverse
        = (if col = st.sortColumn then !st.sortReverse else false)
    ∧ (∀ t : Trade, col ∈ numericColumns → sortKey col t = .num (numCell col t))
    ∧ (∀ t : Trade, col ∉ numericColumns → sortKey col t = .str (strCell col t))
    ∧ (col ∈ numericColumns → (sortByColumn col st).sortReverse = false →
        (∃ t ∈ st.trades, numCell col t = none) →
        ∃ t0, (sortByColumn col st).trades.head? = some t0 ∧ numCell col t0 = none)
    ∧ (col ∈ numericColumns → (sortByColumn col st).sortReverse = true →
        (∃ t ∈ st.trades, numCell col t = none) →
        ∃ t0, (sortByColumn col st).trades.getLast? = some t0
          ∧ numCell col t0 = none)
    ∧ (∀ r : BalanceRow, balanceSortKey .balance r = .num r.balance
        ∧ balanceSortKey .account r = .str r.account
        ∧ balanceSortKey .dateTime r = .str r.dateTime) := by
  refine ⟨rfl, rfl, ?_, ?_, ?_, ?_, fun r => ⟨rfl, rfl, rfl⟩⟩
  · intro t h
    simp [sortKey, h]
  · intro t h
    simp [sortKey, h]
  · intro hcol hasc hbad
    have htr : (sortByColumn col st).trades
        = pySorted (tradeLe col) ((sortByColumn col st).sortReverse) st.trades := rfl
    rw [hasc] at htr
    rw [htr, show pySorted (tradeLe col) false st.trades
      = st.trades.mergeSort (tradeLe col) from rfl]
    exact head_mergeSort_none col hcol st.trades hbad
  · intro hcol hdesc hbad
    have htr : (sortByColumn col st).trades
        = pySorted (tradeLe col) ((sortByColumn col st).sortReverse) st.trades := rfl
    rw [hdesc] at htr
    rw [htr, show pySorted (tradeLe col) true st.trades
      = (st.trades.reverse.mergeSort (tradeLe col)).reverse from rfl]
    rw [List.getLast?_reverse]
    refine head_mergeSort_none col hcol st.trades.reverse ?_
    obtain ⟨tb, htb, hcell⟩ := hbad
    exact ⟨tb, List.mem_reverse.mpr htb, hcell⟩

/-- Witness for C8: clicking `Price` on `exSt` sorts ascending with the
unparseable-price row first; clicking `Price` on `exStDesc` toggles to
descending with that row last. -/
theorem sortViewTypeAware_witness :
    (∃ t0, (sortByColumn .price exSt).trades.head? = some t0
      ∧ numCell .price t0 = none)
    ∧ (∃ t0, (sortByColumn .price exStDesc).trades.getLast? = some t0
      ∧ numCell .price t0 = none) :=
  ⟨(sortViewTypeAware exSt .price).2.2.2.2.1 (by decide) (by decide)
      ⟨tBad, by decide, rfl⟩,
   (sortViewTypeAware exStDesc .price).2.2.2.2.2.1 (by decide) (by decide)
      ⟨tBad, by decide, rfl⟩⟩

/-- C9 counterexample: the sort operation does not leave the Trade
Store's stored sequence unchanged — clicking `Price` on `exSt` reorders
`self.trades` in place. -/
theorem sortChangesStoredSequence :
    ¬ ((sortByColumn .price exSt).trades = exSt.trades) := by
  have h1 : (sortByColumn .price exSt).trades = [tBad, tGood] := by
    show pySorted (tradeLe .price)
      (if Column.price = exSt.sortColumn then !exSt.sortReverse else false)
      exSt.trades = [tBad, tGood]
    simp [pySorted, exSt, List.mergeSort, List.merge, tradeLe, sortKey, keyLe,
      numLe, numCell, numericColumns, tGood, tBad]
  intro hcontra
  rw [h1, show exSt.trades = [tGood, tBad] from rfl] at hcontra
  have : tBad = tGood := by
    injection hcontra
  exact absurd this (by decide)

/-- C9 amended: sorting permutes the Trade Store's in-memory sequence in
place without creating, deleting or modifying records, and leaves the
persisted file and the known-id set unchanged. -/
theorem sortPreservesRecordsAndFile (st : AppState) (col : Column) :
    ((sortByColumn col st).trades).Perm st.trades
    ∧ (sortByColumn col st).savedTrades = st.savedTrades
    ∧ (sortByColumn col st).tradeExecIds = st.tradeExecIds :=
  ⟨pySorted_perm (tradeLe col)
      (if col = st.sortColumn then !st.sortReverse else false) st.trades,
    rfl, rfl⟩

end TradeLogger
